import Mathlib

/-
Verification of the core "Time Engine" and "Export Pipeline" logic of the
TryTakeTwo web video editor, shallowly embedded from the JavaScript source.
JavaScript numbers are modelled as rationals, uuid identifiers as naturals.
-/

namespace TryTakeTwo

/-- A speed keyframe record `{time, speed}` (rows of table `speed_keyframes`). -/
structure SpeedKF where
  time : ℚ
  speed : ℚ
deriving DecidableEq, Repr

/-- Comparison used in the source sorts: `(a, b) => a.time - b.time` keeps `a`
before `b` exactly when `f a ≤ f b`. -/
def timeLE {α : Type} (f : α → ℚ) (a b : α) : Prop := f a ≤ f b

instance {α : Type} (f : α → ℚ) : DecidableRel (timeLE f) :=
  fun a b => inferInstanceAs (Decidable (f a ≤ f b))

instance {α : Type} (f : α → ℚ) : IsTotal α (timeLE f) :=
  ⟨fun a b => le_total (f a) (f b)⟩

instance {α : Type} (f : α → ℚ) : IsTrans α (timeLE f) :=
  ⟨fun _ _ _ h1 h2 => le_trans h1 h2⟩

/-- Stable sort by time: `[...keyframes].sort((a, b) => a.time - b.time)`.
JS `Array.prototype.sort` is stable (ES2019), and a stable sort with this
comparator computes exactly the stable insertion sort. -/
def sortByTime {α : Type} (f : α → ℚ) (l : List α) : List α :=
  List.insertionSort (timeLE f) l

/-- Loop body of `mapClipSourceTime` (src/unnamed/part_002 lines 9-34), with the
mutable loop state `(sourceTime, prevTime, prevSpeed)` passed explicitly.  The
fall-through after the loop (lines 32-34) is the `[]` case. -/
def mapGo (clipLocalTime : ℚ) : List SpeedKF → ℚ → ℚ → ℚ → ℚ
  | [], sourceTime, prevTime, prevSpeed =>
    sourceTime + (clipLocalTime - prevTime) * prevSpeed
  | k :: rest, sourceTime, prevTime, prevSpeed =>
    if clipLocalTime ≤ k.time then
      let segLen := k.time - prevTime
      let t := clipLocalTime - prevTime
      if segLen = 0 then sourceTime + prevSpeed * t
      else
        let frac := t / segLen
        let speedAtT := prevSpeed + (k.speed - prevSpeed) * frac
        sourceTime + t * (prevSpeed + speedAtT) / 2
    else
      mapGo clipLocalTime rest
        (sourceTime + (k.time - prevTime) * (prevSpeed + k.speed) / 2) k.time k.speed

/-- Function `mapClipSourceTime(clipLocalTime, keyframes)` of
src/unnamed/part_002 lines 1-35: piecewise-trapezoidal integration of the
linearly interpolated speed curve.  The source returns `clipLocalTime` when the
keyframe list is empty (the sorted list is empty iff the input is), and
otherwise starts the loop with `prevTime = 0`, `prevSpeed = kf[0].speed`. -/
def mapClipSourceTime (clipLocalTime : ℚ) (keyframes : List SpeedKF) : ℚ :=
  match sortByTime SpeedKF.time keyframes with
  | [] => clipLocalTime
  | k0 :: rest => mapGo clipLocalTime (k0 :: rest) 0 0 k0.speed

/-- Function `lerp(a, b, t)` of src/unnamed/part_002 lines 147-149. -/
def lerp (a b t : ℚ) : ℚ := a + (b - a) * t

/-- Loop of `getSpeedAtTime` over consecutive sorted-keyframe pairs
(src/unnamed/part_002 lines 126-132); the fall-through result is the last
keyframe's speed. -/
def speedPairs (clipLocalTime fallback : ℚ) : List SpeedKF → ℚ
  | a :: b :: rest =>
    if a.time ≤ clipLocalTime ∧ clipLocalTime ≤ b.time then
      let segLen := b.time - a.time
      let frac := if segLen = 0 then 0 else (clipLocalTime - a.time) / segLen
      lerp a.speed b.speed frac
    else speedPairs clipLocalTime fallback (b :: rest)
  | _ => fallback

/-- Function `getSpeedAtTime(clipLocalTime, keyframes)` of src/unnamed/part_002
lines 119-134. -/
def getSpeedAtTime (clipLocalTime : ℚ) (keyframes : List SpeedKF) : ℚ :=
  match sortByTime SpeedKF.time keyframes with
  | [] => 1
  | k0 :: rest =>
    let last := (k0 :: rest).getLast (List.cons_ne_nil _ _)
    if clipLocalTime ≤ k0.time then k0.speed
    else if last.time ≤ clipLocalTime then last.speed
    else speedPairs clipLocalTime last.speed (k0 :: rest)

/-- Easing tags accepted by `getEasedProgress` (src/unnamed/part_002 37-42). -/
inductive EasingKind
  | linear
  | easeIn
  | easeOut
  | easeInOut
deriving DecidableEq, Repr

/-- Function `getEasedProgress(t, easing)` of src/unnamed/part_002 lines 37-42. -/
def getEasedProgress (t : ℚ) : EasingKind → ℚ
  | .easeIn => t * t
  | .easeOut => t * (2 - t)
  | .easeInOut => if t < 1/2 then 2 * t * t else -1 + (4 - 2 * t) * t
  | .linear => t

/-- An overlay keyframe (rows of table `overlay_keyframes`).  The source reads
`kf.scale_x ?? kf.scaleX ?? 1`: persisted rows use the snake_case name, so the
embedding keeps a single total field per property (spec section 9 notes the
snake/camel duplication is a wire-boundary concern).  `easing` is absent on
persisted rows, hence an `Option` (`kf.easing || 'linear'`). -/
structure OverlayKF where
  time : ℚ
  x : ℚ
  y : ℚ
  scale_x : ℚ
  scale_y : ℚ
  rotation : ℚ
  opacity : ℚ
  easing : Option EasingKind
deriving DecidableEq, Repr

/-- An overlay transform `{x, y, scaleX, scaleY, rotation, opacity}`. -/
structure Transform where
  x : ℚ
  y : ℚ
  scaleX : ℚ
  scaleY : ℚ
  rotation : ℚ
  opacity : ℚ
deriving DecidableEq, Repr

/-- Function `kfToTransform(kf)` of src/unnamed/part_002 lines 136-145 (the
`?? default` chains are identities on total fields). -/
def kfToTransform (k : OverlayKF) : Transform :=
  ⟨k.x, k.y, k.scale_x, k.scale_y, k.rotation, k.opacity⟩

/-- Default transform returned for an empty keyframe list
(src/unnamed/part_002 line 45). -/
def defaultTransform : Transform := ⟨0, 0, 1, 1, 0, 1⟩

/-- Loop of `interpolateOverlay` over consecutive sorted-keyframe pairs
(src/unnamed/part_002 lines 53-71); fall-through returns the last keyframe's
transform (line 72). -/
def overlayPairs (clipLocalTime : ℚ) (fallback : Transform) : List OverlayKF → Transform
  | a :: b :: rest =>
    if a.time ≤ clipLocalTime ∧ clipLocalTime ≤ b.time then
      let segLen := b.time - a.time
      let t0 := if segLen = 0 then 0 else (clipLocalTime - a.time) / segLen
      let t := getEasedProgress t0 (a.easing.getD .linear)
      ⟨lerp a.x b.x t, lerp a.y b.y t, lerp a.scale_x b.scale_x t,
        lerp a.scale_y b.scale_y t, lerp a.rotation b.rotation t,
        lerp a.opacity b.opacity t⟩
    else overlayPairs clipLocalTime fallback (b :: rest)
  | _ => fallback

/-- Function `interpolateOverlay(clipLocalTime, keyframes)` of
src/unnamed/part_002 lines 44-73. -/
def interpolateOverlay (clipLocalTime : ℚ) (keyframes : List OverlayKF) : Transform :=
  match sortByTime OverlayKF.time keyframes with
  | [] => defaultTransform
  | k0 :: rest =>
    let last := (k0 :: rest).getLast (List.cons_ne_nil _ _)
    if clipLocalTime ≤ k0.time then kfToTransform k0
    else if last.time ≤ clipLocalTime then kfToTransform last
    else overlayPairs clipLocalTime (kfToTransform last) (k0 :: rest)

/-- Track kinds (table `tracks`, column `type`); the source spells the last
kind 'AUDIO' (renamed here: Lean-side tooling reserves all-caps IO suffixes). -/
inductive TrackType
  | VIDEO_A
  | VIDEO_B
  | OVERLAY_TEXT
  | OVERLAY_IMAGE
  | Audio
deriving DecidableEq, Repr

/-- A clip row (table `clips`) with its loaded keyframes.  The uuid identifiers
are opaque, modelled as naturals; the free-form JSON `properties` payload is
not modelled (no claim concerns it). -/
structure Clip where
  id : ℕ
  asset_id : ℕ
  start_time : ℚ
  duration : ℚ
  in_point : ℚ
  out_point : ℚ
  speedKeyframes : List SpeedKF
  overlayKeyframes : List OverlayKF
deriving DecidableEq, Repr

/-- A track with its ordered clip list. -/
structure Track where
  type : TrackType
  clips : List Clip
deriving DecidableEq, Repr

/-- A project: the ordered track collection consumed by `evaluateTimeline`. -/
structure Project where
  tracks : List Track
deriving DecidableEq, Repr

/-- An active video entry of `evaluateTimeline` (src/unnamed/part_002 93-97). -/
structure VideoEntry where
  clipId : ℕ
  assetId : ℕ
  sourceTime : ℚ
  clipLocalTime : ℚ
deriving DecidableEq, Repr

/-- An active overlay entry of `evaluateTimeline` (src/unnamed/part_002 103-107). -/
structure OverlayEntry where
  clipId : ℕ
  assetId : ℕ
  transform : Transform
deriving DecidableEq, Repr

/-- Result record of `evaluateTimeline` (src/unnamed/part_002 76-80). -/
@[ext]
structure EvalResult where
  videoA : Option VideoEntry
  videoB : Option VideoEntry
  overlayTexts : List OverlayEntry
  overlayImages : List OverlayEntry
  audio : Option VideoEntry
deriving DecidableEq, Repr

/-- Initial result record (src/unnamed/part_002 76-80). -/
def emptyResult : EvalResult := ⟨none, none, [], [], none⟩

/-- Entry built for an active video clip (src/unnamed/part_002 92-97). -/
def mkVideoEntry (c : Clip) (clipLocalTime : ℚ) : VideoEntry :=
  ⟨c.id, c.asset_id, c.in_point + mapClipSourceTime clipLocalTime c.speedKeyframes,
    clipLocalTime⟩

/-- Entry built for an active overlay clip (src/unnamed/part_002 102-107). -/
def mkOverlayEntry (c : Clip) (clipLocalTime : ℚ) : OverlayEntry :=
  ⟨c.id, c.asset_id, interpolateOverlay clipLocalTime c.overlayKeyframes⟩

/-- Per-clip body of the `evaluateTimeline` loops (src/unnamed/part_002 84-114):
skip unless `clipStart ≤ t < clipEnd`, else write the entry into the track
kind's slot.  The `AUDIO` arm is the source's `// Audio support placeholder`
comment — it writes nothing. -/
def evalClip (timelineTime : ℚ) (ty : TrackType) (r : EvalResult) (clip : Clip) : EvalResult :=
  if timelineTime < clip.start_time ∨ clip.start_time + clip.duration ≤ timelineTime then r
  else
    let clipLocalTime := timelineTime - clip.start_time
    match ty with
    | .VIDEO_A => { r with videoA := some (mkVideoEntry clip clipLocalTime) }
    | .VIDEO_B => { r with videoB := some (mkVideoEntry clip clipLocalTime) }
    | .OVERLAY_TEXT =>
      { r with overlayTexts := r.overlayTexts ++ [mkOverlayEntry clip clipLocalTime] }
    | .OVERLAY_IMAGE =>
      { r with overlayImages := r.overlayImages ++ [mkOverlayEntry clip clipLocalTime] }
    | .Audio => r

/-- Function `evaluateTimeline(project, timelineTime)` of src/unnamed/part_002
lines 75-117. -/
def evaluateTimeline (p : Project) (timelineTime : ℚ) : EvalResult :=
  p.tracks.foldl
    (fun r track => track.clips.foldl (evalClip timelineTime track.type) r) emptyResult

/-- Specification-side activation predicate: the half-open interval
`start_time ≤ t < start_time + duration`. -/
def activeAt (c : Clip) (t : ℚ) : Prop :=
  c.start_time ≤ t ∧ t < c.start_time + c.duration

instance (c : Clip) (t : ℚ) : Decidable (activeAt c t) :=
  inferInstanceAs (Decidable (_ ∧ _))

/-- Clips of a list active at `t`, in list order. -/
def activeClips (t : ℚ) (cs : List Clip) : List Clip :=
  cs.filter fun c => decide (activeAt c t)

/-- All active clips on tracks of one kind, in track order. -/
def activeOfType (p : Project) (ty : TrackType) (t : ℚ) : List Clip :=
  p.tracks.flatMap fun tr => if tr.type = ty then activeClips t tr.clips else []

/-- Video entries of the active clips of a clip list. -/
def vEntries (t : ℚ) (cs : List Clip) : List VideoEntry :=
  (activeClips t cs).map fun c => mkVideoEntry c (t - c.start_time)

/-- Overlay entries of the active clips of a clip list. -/
def oEntries (t : ℚ) (cs : List Clip) : List OverlayEntry :=
  (activeClips t cs).map fun c => mkOverlayEntry c (t - c.start_time)

/-- Net effect of one track's clip loop on the running result: video slots are
last-active-wins, overlay slots append, audio is untouched. -/
def applyTrack (t : ℚ) (ty : TrackType) (cs : List Clip) (r : EvalResult) : EvalResult :=
  match ty with
  | .VIDEO_A => { r with videoA := (vEntries t cs).getLast?.or r.videoA }
  | .VIDEO_B => { r with videoB := (vEntries t cs).getLast?.or r.videoB }
  | .OVERLAY_TEXT => { r with overlayTexts := r.overlayTexts ++ oEntries t cs }
  | .OVERLAY_IMAGE => { r with overlayImages := r.overlayImages ++ oEntries t cs }
  | .Audio => r

/-- Export job statuses (table `export_jobs`, column `status`). -/
inductive JobStatus
  | QUEUED
  | RUNNING
  | COMPLETE
  | FAILED
deriving DecidableEq, Repr

/-- An export job row (table `export_jobs`).  The uuid identifiers are opaque
naturals; `output_path` and `error` are not needed by the submission claim. -/
structure ExportJob where
  id : ℕ
  project_id : ℕ
  request_id : ℕ
  status : JobStatus
  progress : ℚ
deriving DecidableEq, Repr

/-- Query `SELECT * FROM export_jobs WHERE request_id = ?` with `.get`: the
first matching row, if any. -/
def findByRequest (jobs : List ExportJob) (rid : ℕ) : Option ExportJob :=
  jobs.find? fun j => j.request_id == rid

/-- Route `POST /:projectId/export` (src/backend/src/routes/assets.js 153-180):
404 when the project row is missing (`none` here); otherwise return the
existing job for `requestId` unchanged, or insert and return a fresh `QUEUED`
job with progress 0.  The async worker fires only after the response is sent
and never touches the returned record. -/
def submitExport (projects : List ℕ) (jobs : List ExportJob) (pid rid newId : ℕ) :
    Option (ExportJob × List ExportJob) :=
  if pid ∈ projects then
    match findByRequest jobs rid with
    | some j => some (j, jobs)
    | none => some (⟨newId, pid, rid, .QUEUED, 0⟩, jobs ++ [⟨newId, pid, rid, .QUEUED, 0⟩])
  else none

/-- Outcome of one external-encoder invocation, as observed by the handlers in
`runFfmpeg` (src/backend/src/routes/projects.js 175-204): the process closed
with an exit code and accumulated stderr, or `spawn` itself failed — with
ENOENT (binary unresolvable) or another error carrying its own message. -/
inductive FfmpegOutcome
  | exited (code : ℤ) (stderr : String)
  | spawnENOENT
  | spawnOther (message : String)
deriving DecidableEq, Repr

/-- JS `stderr.slice(-500)`: the last 500 characters (whole string if shorter). -/
def lastChars (n : ℕ) (s : String) : String := ⟨s.data.drop (s.data.length - n)⟩

/-- Rejection message for a non-zero exit (projects.js line 194). -/
def exitFailMsg (code : ℤ) (stderr : String) : String :=
  "FFmpeg exited with code " ++ toString code ++ ": " ++ lastChars 500 stderr

/-- Rejection message for a missing binary (projects.js line 198). -/
def enoentMsg (ffmpegPath : String) : String :=
  "FFmpeg not found at \"" ++ ffmpegPath ++ "\". Please ensure FFmpeg is installed/in PATH."

/-- Promise semantics of `runFfmpeg(args)` (projects.js 175-204): exit code 0
resolves; a non-zero exit rejects with the code and the stderr tail; a spawn
ENOENT rejects with the configuration message; any other spawn error rejects
with that error's own message. -/
def runFfmpegResult (ffmpegPath : String) : FfmpegOutcome → Except String Unit
  | .exited code stderr => if code = 0 then .ok () else .error (exitFailMsg code stderr)
  | .spawnENOENT => .error (enoentMsg ffmpegPath)
  | .spawnOther msg => .error msg

/-- Await-sequencing of the pipeline's encoder invocations: the first rejection
aborts the run and propagates its message. -/
def runAll (ffmpegPath : String) : List FfmpegOutcome → Except String Unit
  | [] => .ok ()
  | o :: rest =>
    match runFfmpegResult ffmpegPath o with
    | .ok _ => runAll ffmpegPath rest
    | .error e => .error e

/-- Scratch-directory effect of `exportProject` (projects.js 314-581): the
`temp/<jobId>` directory is removed on the success path (line 574) and in the
catch before the rethrow (line 578), so removal (the Boolean) holds on both
paths of the returned run result. -/
def exportRunModel (ffmpegPath : String) (outcomes : List FfmpegOutcome) :
    Except String Unit × Bool :=
  (runAll ffmpegPath outcomes, true)

/-- Job-record effect of `processExportJob` (assets.js 212-245): a resolved run
marks COMPLETE; a rejection is caught and persisted as `status = FAILED`,
`error = err.message`. -/
def processJobModel (ffmpegPath : String) (outcomes : List FfmpegOutcome) :
    JobStatus × String :=
  match (exportRunModel ffmpegPath outcomes).1 with
  | .ok _ => (.COMPLETE, "")
  | .error e => (.FAILED, e)

/-- Invocation outcomes that reject their promise. -/
def isFailure : FfmpegOutcome → Prop
  | .exited code _ => code ≠ 0
  | .spawnENOENT => True
  | .spawnOther _ => True

/-- A planned render sub-chunk: the argument pack of one `renderClipSegment`
invocation — source range `[srcStart, srcEnd]` at constant speed `avgSpeed` —
plus the `{start, duration}` timeline slot pushed into `segmentFiles`
(src/backend/src/routes/projects.js 396-408). -/
structure Chunk where
  srcStart : ℚ
  srcEnd : ℚ
  avgSpeed : ℚ
  segStart : ℚ
  segDur : ℚ
deriving DecidableEq, Repr

/-- Inner subdivision loop `for (var s = 0; s < steps; s++)` of the export
planner (projects.js 386-412), carrying `(s, remaining, accumSourceTime)`:
each sub-chunk renders the source range `[accum, min(accum + stepDur * avgS,
maxSourceDur)]` and the loop breaks once the advanced cursor reaches
`maxSourceDur`.  Returns the chunks, the final cursor, and whether the break
fired. -/
def planChunksAux (startSpeed endSpeed stepDur maxSrc base : ℚ) (steps : ℕ) :
    ℕ → ℕ → ℚ → List Chunk × ℚ × Bool
  | _, 0, accum => ([], accum, false)
  | s, r + 1, accum =>
    let t0 : ℚ := (s : ℚ) / (steps : ℚ)
    let t1 : ℚ := ((s : ℚ) + 1) / (steps : ℚ)
    let s0 := startSpeed + (endSpeed - startSpeed) * t0
    let s1 := startSpeed + (endSpeed - startSpeed) * t1
    let avgS := (s0 + s1) / 2
    let subSource := stepDur * avgS
    let chunk : Chunk := ⟨accum, min (accum + subSource) maxSrc, avgS,
      base + (s : ℚ) * stepDur, stepDur⟩
    let accum' := accum + subSource
    if maxSrc ≤ accum' then ([chunk], accum', true)
    else
      let res := planChunksAux startSpeed endSpeed stepDur maxSrc base steps (s + 1) r accum'
      (chunk :: res.1, res.2.1, res.2.2)

/-- Outer keyframe-pair loop of the multi-keyframe branch (projects.js
371-416), over the sorted keyframes with state `(prevSpeed, prevTime, accum)`.
The `[]` case is the final iteration `ki = sortedKfs.length`, whose pair time
is `clip.duration` and whose start and end speeds are both the last keyframe's
speed.  A pair span of at most 0.001 s is skipped without advancing `prevTime`
(the source's `continue`); keyframe times past the clip duration are clamped;
steps of at most 0.5 s are taken, `steps = ceil(segDuration / 0.5)`. -/
def planOuter (dur maxSrc clipStart : ℚ) :
    List SpeedKF → ℚ → ℚ → ℚ → List Chunk
  | [], prevSpeed, prevTime, accum =>
    let segDuration := dur - prevTime
    if segDuration ≤ 1/1000 then []
    else
      let steps : ℕ := ⌈segDuration / (1/2)⌉.toNat
      let stepDur := segDuration / (steps : ℚ)
      (planChunksAux prevSpeed prevSpeed stepDur maxSrc (clipStart + prevTime)
        steps 0 steps accum).1
  | k :: rest, prevSpeed, prevTime, accum =>
    let kfTime := if k.time > dur then dur else k.time
    let segDuration := kfTime - prevTime
    if segDuration ≤ 1/1000 then planOuter dur maxSrc clipStart rest k.speed prevTime accum
    else
      let steps : ℕ := ⌈segDuration / (1/2)⌉.toNat
      let stepDur := segDuration / (steps : ℚ)
      let res := planChunksAux prevSpeed k.speed stepDur maxSrc (clipStart + prevTime)
        steps 0 steps accum
      if res.2.2 then res.1
      else res.1 ++ planOuter dur maxSrc clipStart rest k.speed kfTime res.2.1

/-- The multi-keyframe planning branch for one clip (projects.js 363-416):
sort the keyframes, start the cursor `accumSourceTime` at `in_point` with
`prevTime = 0` and `prevSpeed = sortedKfs[0].speed` (iteration `ki = 0` uses
`sortedKfs[0].speed` as both start and end speed). -/
def planClipSegments (clipStart dur inPoint maxSrc : ℚ) (kfs : List SpeedKF) : List Chunk :=
  match sortByTime SpeedKF.time kfs with
  | [] => []
  | k0 :: rest => planOuter dur maxSrc clipStart (k0 :: rest) k0.speed 0 inPoint

/-- A video clip flattened from the VIDEO_A/VIDEO_B tracks for export
(projects.js 330-339): timing fields, speed keyframes, the probed duration of
its asset row (`none` when the asset row is missing, in which case the clip is
skipped), and the track tag used by the sort tiebreak. -/
structure VClip where
  start_time : ℚ
  duration : ℚ
  in_point : ℚ
  speedKeyframes : List SpeedKF
  assetDuration : Option ℚ
  isB : Bool
deriving DecidableEq, Repr

/-- Order of the video-clip sort (projects.js 340-342):
`(a.start_time - b.start_time) || (a.trackType === 'VIDEO_B' ? -1 : 1)`.
For two same-track clips with equal starts the JS comparator is inconsistent
(it never answers 0), leaving that tie order implementation-defined; the
embedding resolves exactly those ties stably. -/
def clipLE (a b : VClip) : Prop :=
  a.start_time < b.start_time
    ∨ (a.start_time = b.start_time ∧ (a.isB = true ∨ b.isB = false))

instance : DecidableRel clipLE :=
  fun a b => inferInstanceAs (Decidable (_ ∨ _))

instance : IsTotal VClip clipLE := by
  refine ⟨fun a b => ?_⟩
  rcases lt_trichotomy a.start_time b.start_time with h | h | h
  · exact Or.inl (Or.inl h)
  · cases ha : a.isB
    · cases hb : b.isB
      · exact Or.inl (Or.inr ⟨h, Or.inr hb⟩)
      · exact Or.inr (Or.inr ⟨h.symm, Or.inl hb⟩)
    · exact Or.inl (Or.inr ⟨h, Or.inl ha⟩)
  · exact Or.inr (Or.inl h)

instance : IsTrans VClip clipLE := by
  refine ⟨fun a b c hab hbc => ?_⟩
  rcases hab with h1 | ⟨he1, hr1⟩
  · rcases hbc with h2 | ⟨he2, _⟩
    · exact Or.inl (lt_trans h1 h2)
    · exact Or.inl (he2 ▸ h1)
  · rcases hbc with h2 | ⟨he2, hr2⟩
    · exact Or.inl (he1 ▸ h2)
    · refine Or.inr ⟨he1.trans he2, ?_⟩
      rcases hr1 with h | h
      · exact Or.inl h
      · rcases hr2 with h' | h'
        · rw [h] at h'
          exact absurd h' (by simp)
        · exact Or.inr h'

/-- The sorted export order of the video clips (projects.js 340-342). -/
def sortVideoClips (clips : List VClip) : List VClip :=
  List.insertionSort clipLE clips

/-- Per-clip segment planning of the export loop (projects.js 344-419): a clip
whose asset row is missing is skipped; `maxSourceDur = asset.duration ||
10000`; with at most one speed keyframe one segment covers
`[in_point, min(in_point + duration * speed, maxSourceDur)]` at the clip's
timeline slot, otherwise the subdivision planner runs. -/
def clipSegments (c : VClip) : List Chunk :=
  match c.assetDuration with
  | none => []
  | some d =>
    let maxSrc := if d = 0 then 10000 else d
    if c.speedKeyframes.length ≤ 1 then
      let speed := match c.speedKeyframes with
        | [k] => k.speed
        | _ => 1
      [⟨c.in_point, min (c.in_point + c.duration * speed) maxSrc, speed,
        c.start_time, c.duration⟩]
    else
      planClipSegments c.start_time c.duration c.in_point maxSrc c.speedKeyframes

/-- The `segmentFiles` list in push order — which is also the enumeration
order of the concat list `concat.txt` (projects.js 421-435). -/
def exportVideoSegments (clips : List VClip) : List Chunk :=
  (sortVideoClips clips).flatMap clipSegments

/-- Invariants of the inner subdivision loop: the chunk list starts at the
initial cursor, advances it monotonically, stays clamped to `maxSrc`, fills
the timeline window `[base + s*stepDur, base + steps*stepDur]`, and the final
cursor stays short of `maxSrc` unless the break fired. -/
def ChunkPlanOK (stepDur maxSrc base : ℚ) (steps s : ℕ) (accum : ℚ)
    (out : List Chunk × ℚ × Bool) : Prop :=
  accum ≤ out.2.1
  ∧ (∀ c, out.1.head? = some c → c.srcStart = accum)
  ∧ List.Chain' (fun a b => a.srcStart ≤ b.srcStart) out.1
  ∧ List.Chain' (fun a b => a.segStart ≤ b.segStart) out.1
  ∧ (∀ c ∈ out.1, c.srcEnd ≤ maxSrc)
  ∧ (∀ c ∈ out.1.tail, c.srcStart < maxSrc)
  ∧ (∀ c ∈ out.1, c.srcStart ≤ out.2.1)
  ∧ (∀ c ∈ out.1, base + (s : ℚ) * stepDur ≤ c.segStart
      ∧ c.segStart + stepDur ≤ base + (steps : ℚ) * stepDur)
  ∧ (out.2.2 = false → out.1 ≠ [] → out.2.1 < maxSrc)
  ∧ (out.2.2 = false → out.1 = [] → out.2.1 = accum)

/-- Invariants of the outer keyframe loop of the planner: chunk order in both
source and timeline starts, clamping to `maxSrc`, stop-on-exhaustion, the head
chunk starting at the incoming cursor, and timeline slots confined to
`[clipStart + prevTime, clipStart + dur]`. -/
def OuterPlanOK (maxSrc clipStart dur prevTime accum : ℚ) (cs : List Chunk) : Prop :=
  List.Chain' (fun a b => a.srcStart ≤ b.srcStart) cs
  ∧ List.Chain' (fun a b => a.segStart ≤ b.segStart) cs
  ∧ (∀ c ∈ cs, c.srcEnd ≤ maxSrc)
  ∧ (∀ c ∈ cs.tail, c.srcStart < maxSrc)
  ∧ (∀ c, cs.head? = some c → c.srcStart = accum)
  ∧ (∀ c ∈ cs, clipStart + prevTime ≤ c.segStart ∧ c.segStart ≤ clipStart + dur)

/-- Nonnegativity of linear interpolation between nonnegative endpoints. -/
theorem lerp_nonneg {a b t : ℚ} (ha : 0 ≤ a) (hb : 0 ≤ b) (h0 : 0 ≤ t) (h1 : t ≤ 1) :
    0 ≤ a + (b - a) * t := by nlinarith

/-- Monotonicity of the partial trapezoid area within one keyframe segment:
with start speed `ps`, end speed `ks`, segment length `L`, the accumulated
area `w * (ps + speedAt w) / 2` is monotone in `w` on `[0, L]`. -/
theorem trapSeg_mono {ps ks L u v : ℚ} (hps : 0 ≤ ps) (hks : 0 ≤ ks) (hL : 0 < L)
    (hu : 0 ≤ u) (huv : u ≤ v) (hvL : v ≤ L) :
    u * (ps + (ps + (ks - ps) * (u / L))) / 2 ≤ v * (ps + (ps + (ks - ps) * (v / L))) / 2 := by
  have hsu : 0 ≤ ps + (ks - ps) * (u / L) :=
    lerp_nonneg hps hks (div_nonneg hu hL.le)
      ((div_le_one hL).mpr (le_trans huv hvL))
  have hsv : 0 ≤ ps + (ks - ps) * (v / L) :=
    lerp_nonneg hps hks (div_nonneg (le_trans hu huv) hL.le) ((div_le_one hL).mpr hvL)
  have key : v * (ps + (ps + (ks - ps) * (v / L))) / 2
      - u * (ps + (ps + (ks - ps) * (u / L))) / 2
      = (v - u) * ((ps + (ks - ps) * (u / L)) + (ps + (ks - ps) * (v / L))) / 2 := by
    field_simp
    ring
  nlinarith [mul_nonneg (sub_nonneg.mpr huv) (add_nonneg hsu hsv)]

/-- The loop of `mapClipSourceTime` never returns less than the accumulated
`sourceTime` it starts from, for nonnegative speeds and a time-sorted keyframe
list lying at or after `prevTime`. -/
theorem mapGo_ge (t : ℚ) :
    ∀ (l : List SpeedKF) (st pt ps : ℚ),
      (∀ k ∈ l, 0 ≤ k.speed) → 0 ≤ ps → pt ≤ t →
      (∀ k ∈ l, pt ≤ k.time) →
      l.Pairwise (fun a b => a.time ≤ b.time) →
      st ≤ mapGo t l st pt ps
  | [], st, pt, ps, _, hps, hpt, _, _ => by
    simp only [mapGo]
    nlinarith [mul_nonneg (sub_nonneg.mpr hpt) hps]
  | k :: rest, st, pt, ps, hsp, hps, hpt, htime, hsort => by
    simp only [mapGo]
    by_cases hbr : t ≤ k.time
    · simp only [hbr, if_true]
      by_cases hseg : k.time - pt = 0
      · simp only [hseg, if_true]
        nlinarith [mul_nonneg hps (sub_nonneg.mpr hpt)]
      · simp only [hseg, if_false]
        have hL : 0 < k.time - pt :=
          lt_of_le_of_ne (sub_nonneg.mpr (htime k (List.mem_cons_self k rest)))
            (Ne.symm hseg)
        have hks : 0 ≤ k.speed := hsp k (List.mem_cons_self k rest)
        have h0 : (0:ℚ) * (ps + (ps + (k.speed - ps) * (0 / (k.time - pt)))) / 2
            ≤ (t - pt) * (ps + (ps + (k.speed - ps) * ((t - pt) / (k.time - pt)))) / 2 :=
          trapSeg_mono hps hks hL le_rfl (sub_nonneg.mpr hpt) (by linarith)
        nlinarith [h0]
    · simp only [hbr, if_false]
      have hk := htime k (List.mem_cons_self k rest)
      have hks := hsp k (List.mem_cons_self k rest)
      have hstep : st ≤ st + (k.time - pt) * (ps + k.speed) / 2 := by
        nlinarith [mul_nonneg (sub_nonneg.mpr hk) (add_nonneg hps hks)]
      refine le_trans hstep (mapGo_ge t rest _ k.time k.speed
        (fun x hx => hsp x (List.mem_cons_of_mem _ hx)) hks (le_of_not_le hbr)
        (fun x hx => (List.pairwise_cons.mp hsort).1 x hx)
        (List.pairwise_cons.mp hsort).2)

/-- Monotonicity of the `mapClipSourceTime` loop in `clipLocalTime`, for
nonnegative speeds and a time-sorted keyframe list. -/
theorem mapGo_mono (t1 t2 : ℚ) :
    ∀ (l : List SpeedKF) (st pt ps : ℚ),
      (∀ k ∈ l, 0 ≤ k.speed) → 0 ≤ ps →
      l.Pairwise (fun a b => a.time ≤ b.time) →
      pt ≤ t1 → t1 ≤ t2 →
      mapGo t1 l st pt ps ≤ mapGo t2 l st pt ps
  | [], st, pt, ps, _, hps, _, _, h12 => by
    simp only [mapGo]
    nlinarith [mul_nonneg (sub_nonneg.mpr h12) hps]
  | k :: rest, st, pt, ps, hsp, hps, hsort, hpt1, h12 => by
    have hks : 0 ≤ k.speed := hsp k (List.mem_cons_self k rest)
    simp only [mapGo]
    by_cases h2 : t2 ≤ k.time
    · have h1 : t1 ≤ k.time := le_trans h12 h2
      simp only [h1, h2, if_true]
      by_cases hseg : k.time - pt = 0
      · simp only [hseg, if_true]
        nlinarith [mul_nonneg hps (sub_nonneg.mpr h12)]
      · simp only [hseg, if_false]
        have hL : 0 < k.time - pt := by
          rcases lt_or_eq_of_le (by linarith : (0:ℚ) ≤ k.time - pt) with h | h
          · exact h
          · exact absurd h.symm hseg
        have := trapSeg_mono hps hks hL (sub_nonneg.mpr hpt1)
          (by linarith : t1 - pt ≤ t2 - pt) (by linarith : t2 - pt ≤ k.time - pt)
        linarith
    · by_cases h1 : t1 ≤ k.time
      · -- t1 ends inside this segment, t2 continues past it
        simp only [h1, h2, if_true, if_false]
        have hpair := List.pairwise_cons.mp hsort
        have hrec : st + (k.time - pt) * (ps + k.speed) / 2
            ≤ mapGo t2 rest (st + (k.time - pt) * (ps + k.speed) / 2) k.time k.speed :=
          mapGo_ge t2 rest _ k.time k.speed
            (fun x hx => hsp x (List.mem_cons_of_mem _ hx)) hks
            (le_of_not_le h2) (fun x hx => hpair.1 x hx) hpair.2
        by_cases hseg : k.time - pt = 0
        · simp only [hseg, if_true, zero_mul, zero_div, add_zero]
          have ht1 : t1 = pt := le_antisymm (by linarith [sub_eq_zero.mp hseg]) hpt1
          rw [ht1, sub_self, mul_zero, add_zero]
          exact mapGo_ge t2 rest st k.time k.speed
            (fun x hx => hsp x (List.mem_cons_of_mem _ hx)) hks
            (le_of_not_le h2) (fun x hx => hpair.1 x hx) hpair.2
        · simp only [hseg, if_false]
          have hL : 0 < k.time - pt := by
            rcases lt_or_eq_of_le (by linarith : (0:ℚ) ≤ k.time - pt) with h | h
            · exact h
            · exact absurd h.symm hseg
          have hfull : t1 - pt ≤ k.time - pt := by linarith
          have hmono := trapSeg_mono hps hks hL (sub_nonneg.mpr hpt1) hfull le_rfl
          have hend : (k.time - pt) * (ps + (ps + (k.speed - ps) * ((k.time - pt) / (k.time - pt)))) / 2
              = (k.time - pt) * (ps + k.speed) / 2 := by
            rw [div_self (ne_of_gt hL)]
            ring
          calc st + (t1 - pt) * (ps + (ps + (k.speed - ps) * ((t1 - pt) / (k.time - pt)))) / 2
              ≤ st + (k.time - pt) * (ps + k.speed) / 2 := by rw [← hend]; linarith
            _ ≤ _ := hrec
      · -- both t1 and t2 continue past this keyframe
        simp only [h1, h2, if_false]
        exact mapGo_mono t1 t2 rest _ k.time k.speed
          (fun x hx => hsp x (List.mem_cons_of_mem _ hx)) hks
          (List.pairwise_cons.mp hsort).2 (le_of_not_le h1) h12

/-- The stable sort permutes its input. -/
theorem sortByTime_perm {α : Type} (f : α → ℚ) (l : List α) :
    (sortByTime f l).Perm l :=
  List.perm_insertionSort (timeLE f) l

/-- The stable sort output is time-sorted. -/
theorem sortByTime_sorted {α : Type} (f : α → ℚ) (l : List α) :
    (sortByTime f l).Pairwise (fun a b => f a ≤ f b) :=
  List.sorted_insertionSort (timeLE f) l

/-- C2: for every keyframe list whose speeds are all nonnegative,
`mapClipSourceTime` is monotone non-decreasing in `localTime` on `0 ≤ t1 ≤ t2`,
including through speed-0 hold segments. -/
theorem mapClipSourceTime_monotone (keyframes : List SpeedKF) (t1 t2 : ℚ)
    (hsp : ∀ k ∈ keyframes, 0 ≤ k.speed) (h0 : 0 ≤ t1) (h12 : t1 ≤ t2) :
    mapClipSourceTime t1 keyframes ≤ mapClipSourceTime t2 keyframes := by
  unfold mapClipSourceTime
  have hsp' : ∀ k ∈ sortByTime SpeedKF.time keyframes, 0 ≤ k.speed :=
    fun k hk => hsp k ((sortByTime_perm SpeedKF.time keyframes).mem_iff.mp hk)
  have hsort := sortByTime_sorted SpeedKF.time keyframes
  cases hs : sortByTime SpeedKF.time keyframes with
  | nil => exact h12
  | cons k0 rest =>
    rw [hs] at hsp' hsort
    exact mapGo_mono t1 t2 (k0 :: rest) 0 0 k0.speed hsp'
      (hsp' k0 (List.mem_cons_self k0 rest)) hsort h0 h12

/-- Witness for C2 at a concrete hold keyframe set and times 1 ≤ 2. -/
theorem mapClipSourceTime_monotone_witness :
    mapClipSourceTime 1 [⟨0, 1⟩, ⟨1, 0⟩, ⟨3, 0⟩, ⟨4, 1⟩]
      ≤ mapClipSourceTime 2 [⟨0, 1⟩, ⟨1, 0⟩, ⟨3, 0⟩, ⟨4, 1⟩] :=
  mapClipSourceTime_monotone [⟨0, 1⟩, ⟨1, 0⟩, ⟨3, 0⟩, ⟨4, 1⟩] 1 2
    (by norm_num) (by norm_num) (by norm_num)

/-- C1: `mapClipSourceTime` computes the exact trapezoidal integrals on the
spec's two keyframe lists: the linear ramp `[{0,1},{2,3}]` gives `1.5` at
`t = 1` and `4` at `t = 2`; the hold list `[{0,1},{1,0},{3,0},{4,1}]` gives
`0.5` at `t = 1, 2, 3` and `1` at `t = 4`. -/
theorem mapClipSourceTime_ramp_and_hold_values :
    mapClipSourceTime 1 [⟨0, 1⟩, ⟨2, 3⟩] = 3/2
    ∧ mapClipSourceTime 2 [⟨0, 1⟩, ⟨2, 3⟩] = 4
    ∧ mapClipSourceTime 1 [⟨0, 1⟩, ⟨1, 0⟩, ⟨3, 0⟩, ⟨4, 1⟩] = 1/2
    ∧ mapClipSourceTime 2 [⟨0, 1⟩, ⟨1, 0⟩, ⟨3, 0⟩, ⟨4, 1⟩] = 1/2
    ∧ mapClipSourceTime 3 [⟨0, 1⟩, ⟨1, 0⟩, ⟨3, 0⟩, ⟨4, 1⟩] = 1/2
    ∧ mapClipSourceTime 4 [⟨0, 1⟩, ⟨1, 0⟩, ⟨3, 0⟩, ⟨4, 1⟩] = 1 := by
  refine ⟨?_, ?_, ?_, ?_, ?_, ?_⟩ <;>
    norm_num [mapClipSourceTime, sortByTime, List.insertionSort, List.orderedInsert,
      timeLE, mapGo]

/-- Two permutations of a list with pairwise-distinct times sort to the same
list (with duplicate times the stable sort is order-sensitive). -/
theorem sortByTime_eq_of_perm {α : Type} (f : α → ℚ) {l1 l2 : List α}
    (hp : l1.Perm l2) (hne : l1.Pairwise fun a b => f a ≠ f b) :
    sortByTime f l1 = sortByTime f l2 := by
  haveI : IsAntisymm α (fun a b => f a < f b) :=
    ⟨fun a b h1 h2 => absurd (lt_trans h1 h2) (lt_irrefl _)⟩
  have hsymm : ∀ {x y : α}, f x ≠ f y → f y ≠ f x := fun h => h.symm
  have strict : ∀ (l : List α), l.Pairwise (fun a b => f a ≠ f b) →
      (sortByTime f l).Pairwise (fun a b => f a < f b) := by
    intro l hl
    have hs := sortByTime_sorted f l
    have hn : (sortByTime f l).Pairwise (fun a b => f a ≠ f b) :=
      (List.Perm.pairwise_iff hsymm (sortByTime_perm f l)).mpr hl
    exact (hs.and hn).imp fun h => lt_of_le_of_ne h.1 h.2
  exact List.eq_of_perm_of_sorted
    ((sortByTime_perm f l1).trans (hp.trans (sortByTime_perm f l2).symm))
    (strict l1 hne)
    (strict l2 ((List.Perm.pairwise_iff hsymm hp).mp hne))

/-- C9 counterexample: the Keyframe Math functions are not invariant under
permutation when two keyframes share a time — the stable sort preserves the
tie order, so the two orders of a duplicated time evaluate differently. -/
theorem keyframeMath_perm_cex :
    ([⟨0, 1⟩, ⟨0, 5⟩] : List SpeedKF).Perm [⟨0, 5⟩, ⟨0, 1⟩]
    ∧ mapClipSourceTime 1 [⟨0, 1⟩, ⟨0, 5⟩] = 5
    ∧ mapClipSourceTime 1 [⟨0, 5⟩, ⟨0, 1⟩] = 1
    ∧ mapClipSourceTime 1 [⟨0, 1⟩, ⟨0, 5⟩] ≠ mapClipSourceTime 1 [⟨0, 5⟩, ⟨0, 1⟩] := by
  refine ⟨List.Perm.swap _ _ _, ?_, ?_, ?_⟩ <;>
    norm_num [mapClipSourceTime, sortByTime, List.insertionSort, List.orderedInsert,
      timeLE, mapGo]

/-- C9 (amended): for keyframe lists with pairwise-distinct times, the three
Keyframe Math functions are invariant under permutation of the keyframe list,
because each sorts by time before evaluating. -/
theorem keyframeMath_perm_invariant (kfs kfs' : List SpeedKF) (okfs okfs' : List OverlayKF)
    (hperm : kfs.Perm kfs') (hne : kfs.Pairwise fun a b => a.time ≠ b.time)
    (hoperm : okfs.Perm okfs') (hone : okfs.Pairwise fun a b => a.time ≠ b.time) (t : ℚ) :
    mapClipSourceTime t kfs = mapClipSourceTime t kfs'
    ∧ getSpeedAtTime t kfs = getSpeedAtTime t kfs'
    ∧ interpolateOverlay t okfs = interpolateOverlay t okfs' := by
  have h1 : sortByTime SpeedKF.time kfs = sortByTime SpeedKF.time kfs' :=
    sortByTime_eq_of_perm _ hperm hne
  have h2 : sortByTime OverlayKF.time okfs = sortByTime OverlayKF.time okfs' :=
    sortByTime_eq_of_perm _ hoperm hone
  refine ⟨?_, ?_, ?_⟩
  · unfold mapClipSourceTime
    rw [h1]
  · unfold getSpeedAtTime
    rw [h1]
  · unfold interpolateOverlay
    rw [h2]

/-- Witness for C9 on concrete distinct-time keyframe lists and a swap. -/
theorem keyframeMath_perm_invariant_witness :
    mapClipSourceTime 1 [⟨1, 2⟩, ⟨0, 1⟩] = mapClipSourceTime 1 [⟨0, 1⟩, ⟨1, 2⟩]
    ∧ getSpeedAtTime 1 [⟨1, 2⟩, ⟨0, 1⟩] = getSpeedAtTime 1 [⟨0, 1⟩, ⟨1, 2⟩]
    ∧ interpolateOverlay 1 [⟨1, 2, 0, 1, 1, 0, 1, none⟩, ⟨0, 0, 0, 1, 1, 0, 1, none⟩]
      = interpolateOverlay 1 [⟨0, 0, 0, 1, 1, 0, 1, none⟩, ⟨1, 2, 0, 1, 1, 0, 1, none⟩] :=
  keyframeMath_perm_invariant _ _ _ _ (List.Perm.swap _ _ _)
    (by norm_num [List.pairwise_cons]) (List.Perm.swap _ _ _)
    (by norm_num [List.pairwise_cons]) 1

/-- Appending an option after taking the last of a cons collapses to the head
as new fallback. -/
theorem getLast?_cons_or {α : Type} (e : α) (l : List α) (o : Option α) :
    ((e :: l).getLast?).or o = l.getLast?.or (some e) := by
  cases l with
  | nil => rfl
  | cons b l =>
    rw [List.getLast?_cons_cons]
    rcases List.getLast?_eq_getLast (b :: l) (List.cons_ne_nil b l) with h
    rw [h]
    rfl

/-- A clip is processed by `evalClip` exactly when `activeAt` holds; one clip
list's fold is `applyTrack`. -/
theorem foldClips_eq (t : ℚ) (ty : TrackType) :
    ∀ (cs : List Clip) (r : EvalResult),
      cs.foldl (evalClip t ty) r = applyTrack t ty cs r := by
  intro cs
  induction cs with
  | nil =>
    intro r
    cases ty <;> simp [applyTrack, vEntries, oEntries, activeClips]
  | cons c cs ih =>
    intro r
    rw [List.foldl_cons, ih]
    by_cases h : activeAt c t
    · have hcond : ¬ (t < c.start_time ∨ c.start_time + c.duration ≤ t) := by
        rcases h with ⟨h1, h2⟩
        push_neg
        exact ⟨h1, h2⟩
      have hact : activeClips t (c :: cs) = c :: activeClips t cs := by
        simp [activeClips, List.filter_cons, h]
      cases ty <;>
        simp [applyTrack, evalClip, vEntries, oEntries, hact, getLast?_cons_or, hcond]
    · have hcond : t < c.start_time ∨ c.start_time + c.duration ≤ t := by
        by_contra hc
        push_neg at hc
        exact h ⟨hc.1, hc.2⟩
      have hact : activeClips t (c :: cs) = activeClips t cs := by
        simp [activeClips, List.filter_cons, h]
      cases ty <;>
        simp [applyTrack, evalClip, vEntries, oEntries, hact, hcond]

/-- The track fold's `videoA` slot: last active VIDEO_A entry wins. -/
theorem foldTracks_videoA (t : ℚ) :
    ∀ (trs : List Track) (r : EvalResult),
      (trs.foldl (fun r tr => applyTrack t tr.type tr.clips r) r).videoA
        = (trs.flatMap fun tr =>
            if tr.type = .VIDEO_A then vEntries t tr.clips else []).getLast?.or r.videoA := by
  intro trs
  induction trs with
  | nil => intro r; rfl
  | cons tr trs ih =>
    intro r
    rw [List.foldl_cons, ih, List.flatMap_cons, List.getLast?_append, Option.or_assoc]
    cases htr : tr.type <;> simp [applyTrack]

/-- The track fold's `videoB` slot: last active VIDEO_B entry wins. -/
theorem foldTracks_videoB (t : ℚ) :
    ∀ (trs : List Track) (r : EvalResult),
      (trs.foldl (fun r tr => applyTrack t tr.type tr.clips r) r).videoB
        = (trs.flatMap fun tr =>
            if tr.type = .VIDEO_B then vEntries t tr.clips else []).getLast?.or r.videoB := by
  intro trs
  induction trs with
  | nil => intro r; rfl
  | cons tr trs ih =>
    intro r
    rw [List.foldl_cons, ih, List.flatMap_cons, List.getLast?_append, Option.or_assoc]
    cases htr : tr.type <;> simp [applyTrack]

/-- The track fold's `overlayTexts` slot appends every active text entry. -/
theorem foldTracks_overlayTexts (t : ℚ) :
    ∀ (trs : List Track) (r : EvalResult),
      (trs.foldl (fun r tr => applyTrack t tr.type tr.clips r) r).overlayTexts
        = r.overlayTexts ++ (trs.flatMap fun tr =>
            if tr.type = .OVERLAY_TEXT then oEntries t tr.clips else []) := by
  intro trs
  induction trs with
  | nil => intro r; simp
  | cons tr trs ih =>
    intro r
    rw [List.foldl_cons, ih, List.flatMap_cons, ← List.append_assoc]
    cases htr : tr.type <;> simp [applyTrack]

/-- The track fold's `overlayImages` slot appends every active image entry. -/
theorem foldTracks_overlayImages (t : ℚ) :
    ∀ (trs : List Track) (r : EvalResult),
      (trs.foldl (fun r tr => applyTrack t tr.type tr.clips r) r).overlayImages
        = r.overlayImages ++ (trs.flatMap fun tr =>
            if tr.type = .OVERLAY_IMAGE then oEntries t tr.clips else []) := by
  intro trs
  induction trs with
  | nil => intro r; simp
  | cons tr trs ih =>
    intro r
    rw [List.foldl_cons, ih, List.flatMap_cons, ← List.append_assoc]
    cases htr : tr.type <;> simp [applyTrack]

/-- The track fold never writes the `audio` slot. -/
theorem foldTracks_audio (t : ℚ) :
    ∀ (trs : List Track) (r : EvalResult),
      (trs.foldl (fun r tr => applyTrack t tr.type tr.clips r) r).audio = r.audio := by
  intro trs
  induction trs with
  | nil => intro r; rfl
  | cons tr trs ih =>
    intro r
    rw [List.foldl_cons, ih]
    cases htr : tr.type <;> simp [applyTrack]

/-- `evaluateTimeline` is the track fold of `applyTrack`. -/
theorem evaluateTimeline_eq (p : Project) (t : ℚ) :
    evaluateTimeline p t
      = p.tracks.foldl (fun r tr => applyTrack t tr.type tr.clips r) emptyResult := by
  unfold evaluateTimeline
  have h : ∀ (trs : List Track) (r : EvalResult),
      trs.foldl (fun r tr => tr.clips.foldl (evalClip t tr.type) r) r
        = trs.foldl (fun r tr => applyTrack t tr.type tr.clips r) r := by
    intro trs
    induction trs with
    | nil => intro r; rfl
    | cons tr trs ih =>
      intro r
      rw [List.foldl_cons, List.foldl_cons, foldClips_eq, ih]
  exact h p.tracks emptyResult

/-- Mapping video entries over per-track active clips agrees with mapping over
the concatenated active clips. -/
theorem vEntries_activeOfType (p : Project) (ty : TrackType) (t : ℚ) :
    (p.tracks.flatMap fun tr => if tr.type = ty then vEntries t tr.clips else [])
      = (activeOfType p ty t).map fun c => mkVideoEntry c (t - c.start_time) := by
  unfold activeOfType
  induction p.tracks with
  | nil => rfl
  | cons tr trs ih =>
    rw [List.flatMap_cons, List.flatMap_cons, List.map_append, ih]
    by_cases h : tr.type = ty <;> simp [h, vEntries]

/-- Mapping overlay entries over per-track active clips agrees with mapping
over the concatenated active clips. -/
theorem oEntries_activeOfType (p : Project) (ty : TrackType) (t : ℚ) :
    (p.tracks.flatMap fun tr => if tr.type = ty then oEntries t tr.clips else [])
      = (activeOfType p ty t).map fun c => mkOverlayEntry c (t - c.start_time) := by
  unfold activeOfType
  induction p.tracks with
  | nil => rfl
  | cons tr trs ih =>
    rw [List.flatMap_cons, List.flatMap_cons, List.map_append, ih]
    by_cases h : tr.type = ty <;> simp [h, oEntries]

/-- Closed form of the `videoA` slot. -/
theorem evalTL_videoA (p : Project) (t : ℚ) :
    (evaluateTimeline p t).videoA
      = ((activeOfType p .VIDEO_A t).map fun c => mkVideoEntry c (t - c.start_time)).getLast? := by
  rw [evaluateTimeline_eq, foldTracks_videoA, vEntries_activeOfType]
  simp [emptyResult]

/-- Closed form of the `videoB` slot. -/
theorem evalTL_videoB (p : Project) (t : ℚ) :
    (evaluateTimeline p t).videoB
      = ((activeOfType p .VIDEO_B t).map fun c => mkVideoEntry c (t - c.start_time)).getLast? := by
  rw [evaluateTimeline_eq, foldTracks_videoB, vEntries_activeOfType]
  simp [emptyResult]

/-- Closed form of the `overlayTexts` slot. -/
theorem evalTL_overlayTexts (p : Project) (t : ℚ) :
    (evaluateTimeline p t).overlayTexts
      = (activeOfType p .OVERLAY_TEXT t).map fun c => mkOverlayEntry c (t - c.start_time) := by
  rw [evaluateTimeline_eq, foldTracks_overlayTexts, oEntries_activeOfType]
  simp [emptyResult]

/-- Closed form of the `overlayImages` slot. -/
theorem evalTL_overlayImages (p : Project) (t : ℚ) :
    (evaluateTimeline p t).overlayImages
      = (activeOfType p .OVERLAY_IMAGE t).map fun c => mkOverlayEntry c (t - c.start_time) := by
  rw [evaluateTimeline_eq, foldTracks_overlayImages, oEntries_activeOfType]
  simp [emptyResult]

/-- Closed form of the `audio` slot: never written. -/
theorem evalTL_audio (p : Project) (t : ℚ) :
    (evaluateTimeline p t).audio = none := by
  rw [evaluateTimeline_eq, foldTracks_audio]
  rfl

/-- Under no active clips, the per-kind active lists are empty. -/
theorem activeOfType_eq_nil (p : Project) (ty : TrackType) (t : ℚ)
    (hno : ∀ tr ∈ p.tracks, ∀ c ∈ tr.clips, ¬ activeAt c t) :
    activeOfType p ty t = [] := by
  unfold activeOfType
  have key : ∀ trs : List Track, (∀ tr ∈ trs, ∀ c ∈ tr.clips, ¬ activeAt c t) →
      trs.flatMap (fun tr => if tr.type = ty then activeClips t tr.clips else []) = [] := by
    intro trs
    induction trs with
    | nil => intro _; rfl
    | cons tr trs ih =>
      intro hh
      rw [List.flatMap_cons, ih (fun tr' htr' => hh tr' (List.mem_cons_of_mem _ htr')),
        List.append_nil]
      by_cases hty : tr.type = ty
      · simp only [hty, if_true, activeClips]
        rw [List.filter_eq_nil_iff]
        intro c hc
        simpa using hh tr (List.mem_cons_self tr trs) c hc
      · simp [hty]
  exact key p.tracks hno

/-- C10: when several clips on a video track are active at once, the result
carries exactly the entry of the last active clip in clip-list order (later
writes overwrite earlier ones), hence at most one entry per video track. -/
theorem evaluateTimeline_video_lastWins (p : Project) (t : ℚ) :
    (evaluateTimeline p t).videoA
      = ((activeOfType p .VIDEO_A t).map fun c => mkVideoEntry c (t - c.start_time)).getLast?
    ∧ (evaluateTimeline p t).videoB
      = ((activeOfType p .VIDEO_B t).map fun c => mkVideoEntry c (t - c.start_time)).getLast? :=
  ⟨evalTL_videoA p t, evalTL_videoB p t⟩

/-- C5 (amended): `evaluateTimeline` never produces an audio entry — the AUDIO
branch of the source is an explicit placeholder, so the `audio` slot of the
result is always null however many audio clips are active. -/
theorem evaluateTimeline_audio_none (p : Project) (t : ℚ) :
    (evaluateTimeline p t).audio = none :=
  evalTL_audio p t

/-- C4: `evaluateTimeline` treats a clip as active exactly on the half-open
interval `start_time ≤ t < start_time + duration`: the overlay lists are
exactly the active clips' entries, a video slot is filled iff some clip of
that kind is active, a time outside every clip's extent yields the empty
result, and at a shared boundary of two abutting clips exactly the later clip
is active. -/
theorem evaluateTimeline_halfOpen_activation (p : Project) (t : ℚ) :
    ((evaluateTimeline p t).overlayTexts
      = (activeOfType p .OVERLAY_TEXT t).map fun c => mkOverlayEntry c (t - c.start_time))
    ∧ ((evaluateTimeline p t).overlayImages
      = (activeOfType p .OVERLAY_IMAGE t).map fun c => mkOverlayEntry c (t - c.start_time))
    ∧ ((evaluateTimeline p t).videoA = none ↔ activeOfType p .VIDEO_A t = [])
    ∧ ((evaluateTimeline p t).videoB = none ↔ activeOfType p .VIDEO_B t = [])
    ∧ ((∀ tr ∈ p.tracks, ∀ c ∈ tr.clips, ¬ activeAt c t) → evaluateTimeline p t = emptyResult)
    ∧ (∀ c1 c2 : Clip, c2.start_time = c1.start_time + c1.duration → 0 < c2.duration →
        activeAt c2 c2.start_time ∧ ¬ activeAt c1 c2.start_time) := by
  refine ⟨evalTL_overlayTexts p t, evalTL_overlayImages p t, ?_, ?_, ?_, ?_⟩
  · rw [evalTL_videoA]
    constructor
    · intro h
      have := List.getLast?_eq_none_iff.mp h
      exact List.map_eq_nil_iff.mp this
    · intro h
      rw [h]
      rfl
  · rw [evalTL_videoB]
    constructor
    · intro h
      have := List.getLast?_eq_none_iff.mp h
      exact List.map_eq_nil_iff.mp this
    · intro h
      rw [h]
      rfl
  · intro hno
    ext1
    · rw [evalTL_videoA, activeOfType_eq_nil p _ t hno]
      rfl
    · rw [evalTL_videoB, activeOfType_eq_nil p _ t hno]
      rfl
    · rw [evalTL_overlayTexts, activeOfType_eq_nil p _ t hno]
      rfl
    · rw [evalTL_overlayImages, activeOfType_eq_nil p _ t hno]
      rfl
    · rw [evalTL_audio]
      rfl
  · intro c1 c2 hb hd
    refine ⟨⟨le_refl _, by linarith⟩, ?_⟩
    rintro ⟨h1, h2⟩
    rw [hb] at h2
    exact lt_irrefl _ h2

/-- Witness for C4 on a concrete project: a time outside the single clip gives
the empty result, and at the boundary 2 of the abutting extents `[0,2)` and
`[2,5)` only the later clip is active. -/
theorem evaluateTimeline_halfOpen_activation_witness :
    evaluateTimeline ⟨[⟨.VIDEO_A, [⟨7, 3, 0, 2, 0, 2, [], []⟩]⟩]⟩ 5 = emptyResult
    ∧ (activeAt ⟨2, 1, 2, 3, 0, 0, [], []⟩ 2 ∧ ¬ activeAt ⟨1, 1, 0, 2, 0, 0, [], []⟩ 2) :=
  ⟨(evaluateTimeline_halfOpen_activation ⟨[⟨.VIDEO_A, [⟨7, 3, 0, 2, 0, 2, [], []⟩]⟩]⟩ 5).2.2.2.2.1
      (by
        intro tr htr c hc
        simp only [List.mem_singleton] at htr
        subst htr
        simp only [List.mem_singleton] at hc
        subst hc
        norm_num [activeAt]),
    (evaluateTimeline_halfOpen_activation ⟨[⟨.VIDEO_A, [⟨7, 3, 0, 2, 0, 2, [], []⟩]⟩]⟩ 5).2.2.2.2.2
      ⟨1, 1, 0, 2, 0, 0, [], []⟩ ⟨2, 1, 2, 3, 0, 0, [], []⟩ (by norm_num) (by norm_num)⟩

/-- C5 counterexample: on a project whose AUDIO track has a clip active at the
query time, `evaluateTimeline` still returns the empty result — no audio entry
with a computed source time is produced. -/
theorem evaluateTimeline_audio_cex :
    activeAt ⟨1, 1, 0, 2, 0, 2, [], []⟩ 1
    ∧ evaluateTimeline ⟨[⟨.Audio, [⟨1, 1, 0, 2, 0, 2, [], []⟩]⟩]⟩ 1 = emptyResult := by
  constructor
  · constructor <;> norm_num
  · norm_num [evaluateTimeline, evalClip]

/-- C3: export submission is idempotent on the request token: when a job
already exists for `requestId` the submit call returns that first job
unchanged — same id, any status — and inserts nothing; when none exists it
always creates and returns a fresh `QUEUED` job with the new id; and a repeat
submit after any submit returns the identical record with no further insert. -/
theorem submitExport_idempotent (projects : List ℕ) (jobs : List ExportJob)
    (pid rid nid nid2 : ℕ) (hp : pid ∈ projects) :
    (∀ j, findByRequest jobs rid = some j →
      submitExport projects jobs pid rid nid = some (j, jobs))
    ∧ (findByRequest jobs rid = none →
      submitExport projects jobs pid rid nid
        = some (⟨nid, pid, rid, .QUEUED, 0⟩, jobs ++ [⟨nid, pid, rid, .QUEUED, 0⟩]))
    ∧ (∀ r1, submitExport projects jobs pid rid nid = some r1 →
      submitExport projects r1.2 pid rid nid2 = some (r1.1, r1.2)) := by
  refine ⟨?_, ?_, ?_⟩
  · intro j hj
    simp [submitExport, hp, hj]
  · intro hnone
    simp [submitExport, hp, hnone]
  · intro r1 h1
    cases hf : findByRequest jobs rid with
    | some j =>
      simp only [submitExport, hp, if_true, hf, Option.some.injEq] at h1
      rw [← h1]
      simp [submitExport, hp, hf]
    | none =>
      simp only [submitExport, hp, if_true, hf, Option.some.injEq] at h1
      have hfind : findByRequest (jobs ++ [(⟨nid, pid, rid, .QUEUED, 0⟩ : ExportJob)]) rid
          = some ⟨nid, pid, rid, .QUEUED, 0⟩ := by
        unfold findByRequest at hf ⊢
        rw [List.find?_append, hf]
        simp
      rw [← h1]
      simp [submitExport, hp, hfind]

/-- Witness for C3: submitting request 5 against an empty job table creates a
QUEUED job with the fresh id 10; resubmitting the same request returns that
very record and inserts nothing. -/
theorem submitExport_idempotent_witness :
    submitExport [1] [] 1 5 10
      = some (⟨10, 1, 5, .QUEUED, 0⟩, [⟨10, 1, 5, .QUEUED, 0⟩])
    ∧ submitExport [1] [⟨10, 1, 5, .QUEUED, 0⟩] 1 5 11
      = some (⟨10, 1, 5, .QUEUED, 0⟩, [⟨10, 1, 5, .QUEUED, 0⟩]) :=
  ⟨(submitExport_idempotent [1] [] 1 5 10 11 (by simp)).2.1 rfl,
    (submitExport_idempotent [1] [] 1 5 10 11 (by simp)).2.2
      (⟨10, 1, 5, .QUEUED, 0⟩, [⟨10, 1, 5, .QUEUED, 0⟩])
      ((submitExport_idempotent [1] [] 1 5 10 11 (by simp)).2.1 rfl)⟩

set_option maxRecDepth 4000 in
/-- The non-zero-exit message and the missing-binary message are always
distinct: they differ at character 7 ('e' versus 'n'). -/
theorem exitFailMsg_ne_enoentMsg (code : ℤ) (stderr p : String) :
    exitFailMsg code stderr ≠ enoentMsg p := by
  intro h
  have hd := congrArg String.data h
  unfold exitFailMsg enoentMsg at hd
  simp only [String.data_append, List.append_assoc] at hd
  have h8 := congrArg (List.take 8) hd
  have ht1 : (8 : ℕ) ≤ "FFmpeg exited with code ".data.length := by decide
  have ht2 : (8 : ℕ) ≤ "FFmpeg not found at \"".data.length := by decide
  rw [List.take_append_of_le_length ht1, List.take_append_of_le_length ht2] at h8
  exact absurd h8 (by decide)

set_option maxRecDepth 4000 in
/-- The non-zero-exit message is never empty. -/
theorem exitFailMsg_ne_empty (code : ℤ) (stderr : String) :
    exitFailMsg code stderr ≠ "" := by
  intro h
  have hd := congrArg String.data h
  unfold exitFailMsg at hd
  simp only [String.data_append, List.append_assoc] at hd
  exact absurd hd (by simp)

set_option maxRecDepth 4000 in
/-- The missing-binary message is never empty. -/
theorem enoentMsg_ne_empty (p : String) : enoentMsg p ≠ "" := by
  intro h
  have hd := congrArg String.data h
  unfold enoentMsg at hd
  simp only [String.data_append, List.append_assoc] at hd
  exact absurd hd (by simp)

/-- A run containing a failing invocation rejects with a non-empty message
(spawn errors other than ENOENT carry the OS error's own message, which is
never empty — hypothesis `hmsg`). -/
theorem runAll_fails (ffmpegPath : String) :
    ∀ (outcomes : List FfmpegOutcome),
      (∀ m, FfmpegOutcome.spawnOther m ∈ outcomes → m ≠ "") →
      (∃ o ∈ outcomes, isFailure o) →
      ∃ e, runAll ffmpegPath outcomes = .error e ∧ e ≠ ""
  | [], _, hfail => absurd hfail (by simp)
  | o :: rest, hmsg, hfail => by
    cases o with
    | exited code stderr =>
      by_cases hc : code = 0
      · have hrec := runAll_fails ffmpegPath rest
          (fun m hm => hmsg m (List.mem_cons_of_mem _ hm))
          (by
            rcases hfail with ⟨o', ho', hfo'⟩
            rcases List.mem_cons.mp ho' with h | h
            · subst h
              exact absurd hc hfo'
            · exact ⟨o', h, hfo'⟩)
        rcases hrec with ⟨e, he, hne⟩
        exact ⟨e, by simp [runAll, runFfmpegResult, hc, he], hne⟩
      · exact ⟨exitFailMsg code stderr,
          by simp [runAll, runFfmpegResult, hc], exitFailMsg_ne_empty code stderr⟩
    | spawnENOENT =>
      exact ⟨enoentMsg ffmpegPath, by simp [runAll, runFfmpegResult],
        enoentMsg_ne_empty ffmpegPath⟩
    | spawnOther m =>
      exact ⟨m, by simp [runAll, runFfmpegResult],
        hmsg m (List.mem_cons_self _ _)⟩

/-- C7: if any encoder invocation of an export run fails, the job transitions
to FAILED with a non-empty error capturing the process diagnostics, the job's
scratch directory is removed, the missing-binary text is distinguishable from
every non-zero-exit text, and the non-zero-exit text carries the exit code
prefix followed by the stderr tail. -/
theorem exportFailure_semantics (ffmpegPath : String) (outcomes : List FfmpegOutcome)
    (hmsg : ∀ m, FfmpegOutcome.spawnOther m ∈ outcomes → m ≠ "")
    (hfail : ∃ o ∈ outcomes, isFailure o) :
    (processJobModel ffmpegPath outcomes).1 = .FAILED
    ∧ (processJobModel ffmpegPath outcomes).2 ≠ ""
    ∧ (exportRunModel ffmpegPath outcomes).2 = true
    ∧ (∀ code stderr path, exitFailMsg code stderr ≠ enoentMsg path)
    ∧ (∀ code stderr, (exitFailMsg code stderr).data
        = ("FFmpeg exited with code " ++ toString code ++ ": ").data
          ++ (lastChars 500 stderr).data) := by
  rcases runAll_fails ffmpegPath outcomes hmsg hfail with ⟨e, he, hne⟩
  refine ⟨?_, ?_, rfl, fun c st pa => exitFailMsg_ne_enoentMsg c st pa, ?_⟩
  · simp [processJobModel, exportRunModel, he]
  · simp [processJobModel, exportRunModel, he, hne]
  · intro c st
    unfold exitFailMsg
    simp [String.data_append]

/-- Witness for C7 at a single invocation exiting with code 1. -/
theorem exportFailure_semantics_witness :
    (processJobModel "ffmpeg" [.exited 1 "boom"]).1 = .FAILED
    ∧ (processJobModel "ffmpeg" [.exited 1 "boom"]).2 ≠ ""
    ∧ (exportRunModel "ffmpeg" [.exited 1 "boom"]).2 = true
    ∧ (∀ code stderr path, exitFailMsg code stderr ≠ enoentMsg path)
    ∧ (∀ code stderr, (exitFailMsg code stderr).data
        = ("FFmpeg exited with code " ++ toString code ++ ": ").data
          ++ (lastChars 500 stderr).data) :=
  exportFailure_semantics "ffmpeg" [.exited 1 "boom"] (by simp)
    ⟨.exited 1 "boom", by simp, by norm_num [isFailure]⟩

/-- The inner subdivision loop satisfies its invariants for nonnegative
endpoint speeds and step size, and produces at least one chunk when at least
one step remains. -/
theorem planChunksAux_spec (startSpeed endSpeed stepDur maxSrc base : ℚ) (steps : ℕ)
    (hss : 0 ≤ startSpeed) (hes : 0 ≤ endSpeed) (hsd : 0 ≤ stepDur) :
    ∀ (r s : ℕ) (accum : ℚ), s + r ≤ steps →
      ChunkPlanOK stepDur maxSrc base steps s accum
        (planChunksAux startSpeed endSpeed stepDur maxSrc base steps s r accum)
      ∧ (1 ≤ r →
        (planChunksAux startSpeed endSpeed stepDur maxSrc base steps s r accum).1 ≠ []) := by
  intro r
  induction r with
  | zero =>
    intro s accum _
    refine ⟨⟨le_rfl, ?_, ?_, ?_, ?_, ?_, ?_, ?_, ?_, ?_⟩, ?_⟩ <;>
      simp [planChunksAux]
  | succ r ih =>
    intro s accum hsr
    have hsteps_pos : 0 < steps := by omega
    have hcast : (0:ℚ) < (steps : ℚ) := by exact_mod_cast hsteps_pos
    have hs_lt : s < steps := by omega
    have ht0 : (0:ℚ) ≤ (s:ℚ) / (steps:ℚ) :=
      div_nonneg (Nat.cast_nonneg s) (Nat.cast_nonneg steps)
    have ht0' : (s:ℚ) / (steps:ℚ) ≤ 1 := by
      rw [div_le_one hcast]
      exact_mod_cast hs_lt.le
    have ht1 : (0:ℚ) ≤ ((s:ℚ) + 1) / (steps:ℚ) :=
      div_nonneg (by positivity) (Nat.cast_nonneg steps)
    have ht1' : ((s:ℚ) + 1) / (steps:ℚ) ≤ 1 := by
      rw [div_le_one hcast]
      have : ((s + 1 : ℕ) : ℚ) ≤ (steps : ℚ) := by exact_mod_cast hs_lt
      push_cast at this
      linarith
    have hs0 : 0 ≤ startSpeed + (endSpeed - startSpeed) * ((s:ℚ) / (steps:ℚ)) :=
      lerp_nonneg hss hes ht0 ht0'
    have hs1 : 0 ≤ startSpeed + (endSpeed - startSpeed) * (((s:ℚ) + 1) / (steps:ℚ)) :=
      lerp_nonneg hss hes ht1 ht1'
    have havg : 0 ≤ (startSpeed + (endSpeed - startSpeed) * ((s:ℚ) / (steps:ℚ))
        + (startSpeed + (endSpeed - startSpeed) * (((s:ℚ) + 1) / (steps:ℚ)))) / 2 := by
      positivity
    have hsub : 0 ≤ stepDur * ((startSpeed + (endSpeed - startSpeed) * ((s:ℚ) / (steps:ℚ))
        + (startSpeed + (endSpeed - startSpeed) * (((s:ℚ) + 1) / (steps:ℚ)))) / 2) :=
      mul_nonneg hsd havg
    have hstepbound : base + (s:ℚ) * stepDur + stepDur ≤ base + (steps:ℚ) * stepDur := by
      have h1 : ((s:ℚ) + 1) ≤ (steps:ℚ) := by exact_mod_cast hs_lt
      nlinarith
    simp only [planChunksAux]
    split
    case isTrue hstop =>
      refine ⟨⟨by simpa using hsub, ?_, ?_, ?_, ?_, ?_, ?_, ?_, ?_, ?_⟩, ?_⟩
      · intro c hc
        simp only [List.head?_cons, Option.some.injEq] at hc
        rw [← hc]
      · simp
      · simp
      · intro c hc
        simp only [List.mem_singleton] at hc
        rw [hc]
        exact min_le_right _ _
      · simp
      · intro c hc
        simp only [List.mem_singleton] at hc
        rw [hc]
        simpa using hsub
      · intro c hc
        simp only [List.mem_singleton] at hc
        rw [hc]
        exact ⟨le_rfl, hstepbound⟩
      · intro h
        exact absurd h (by simp)
      · intro h
        exact absurd h (by simp)
      · intro _
        simp
    case isFalse hstop =>
      have hIH := ih (s + 1) (accum + stepDur * ((startSpeed + (endSpeed - startSpeed)
          * ((s:ℚ) / (steps:ℚ)) + (startSpeed + (endSpeed - startSpeed)
          * (((s:ℚ) + 1) / (steps:ℚ)))) / 2)) (by omega)
      rcases hIH with ⟨⟨I1, I2, I3, I4, I5, I6, I7, I8, I9, I10⟩, _⟩
      set accum' := accum + stepDur * ((startSpeed + (endSpeed - startSpeed)
          * ((s:ℚ) / (steps:ℚ)) + (startSpeed + (endSpeed - startSpeed)
          * (((s:ℚ) + 1) / (steps:ℚ)))) / 2) with haccum'
      set P := planChunksAux startSpeed endSpeed stepDur maxSrc base steps (s + 1) r accum'
        with hP
      have hlt : accum' < maxSrc := lt_of_not_le hstop
      have hcast1 : ((s + 1 : ℕ) : ℚ) = (s : ℚ) + 1 := by push_cast; ring
      have hle : accum ≤ accum' := by
        rw [haccum']
        linarith
      refine ⟨⟨by dsimp only; exact le_trans hle I1, ?_, ?_, ?_, ?_, ?_, ?_, ?_, ?_, ?_⟩, ?_⟩
      · intro c hc
        simp only [List.head?_cons, Option.some.injEq] at hc
        rw [← hc]
      · refine List.Chain'.cons' I3 ?_
        intro y hy
        have h2 := I2 y hy
        dsimp only
        rw [h2]
        exact hle
      · refine List.Chain'.cons' I4 ?_
        intro y hy
        have hmem := List.mem_of_mem_head? hy
        have := (I8 y hmem).1
        rw [hcast1] at this
        have hstep : base + (s:ℚ) * stepDur ≤ base + ((s:ℚ) + 1) * stepDur := by nlinarith
        dsimp only
        linarith
      · intro c hc
        rcases List.mem_cons.mp hc with h | h
        · rw [h]
          exact min_le_right _ _
        · exact I5 c h
      · intro c hc
        simp only [List.tail_cons] at hc
        cases hQ : P.1 with
        | nil =>
          rw [hQ] at hc
          simp at hc
        | cons p ps =>
          rw [hQ] at hc
          rcases List.mem_cons.mp hc with h | h
          · have := I2 p (by rw [hQ]; rfl)
            rw [h, this]
            exact hlt
          · exact I6 c (by rw [hQ]; simpa using h)
      · intro c hc
        rcases List.mem_cons.mp hc with h | h
        · rw [h]
          dsimp only
          exact le_trans hle I1
        · exact I7 c h
      · intro c hc
        rcases List.mem_cons.mp hc with h | h
        · rw [h]
          exact ⟨le_rfl, hstepbound⟩
        · have := I8 c h
          rw [hcast1] at this
          refine ⟨?_, this.2⟩
          have hstep : base + (s:ℚ) * stepDur ≤ base + ((s:ℚ) + 1) * stepDur := by nlinarith
          linarith [this.1]
      · intro hfalse _
        cases hQ : P.1 with
        | nil => rw [I10 hfalse hQ]; exact hlt
        | cons p ps => exact I9 hfalse (by rw [hQ]; simp)
      · intro _ h
        exact absurd h (by simp)
      · intro _
        simp

/-- One keyframe-pair iteration of the planner satisfies the outer invariants
on its own chunks, plus the gluing facts needed across iterations. -/
theorem planIter_spec (maxSrc clipStart dur prevTime accum kfTime ss es stepDur : ℚ)
    (steps : ℕ) (hss : 0 ≤ ss) (hes : 0 ≤ es) (hsteps : 0 < steps) (hstepDur : 0 < stepDur)
    (hsum : (steps : ℚ) * stepDur = kfTime - prevTime) (hkf : kfTime ≤ dur) :
    OuterPlanOK maxSrc clipStart dur prevTime accum
      (planChunksAux ss es stepDur maxSrc (clipStart + prevTime) steps 0 steps accum).1
    ∧ (planChunksAux ss es stepDur maxSrc (clipStart + prevTime) steps 0 steps accum).1 ≠ []
    ∧ (∀ c ∈ (planChunksAux ss es stepDur maxSrc (clipStart + prevTime) steps 0 steps accum).1,
        c.srcStart
          ≤ (planChunksAux ss es stepDur maxSrc (clipStart + prevTime) steps 0 steps accum).2.1)
    ∧ (∀ c ∈ (planChunksAux ss es stepDur maxSrc (clipStart + prevTime) steps 0 steps accum).1,
        c.segStart + stepDur ≤ clipStart + kfTime)
    ∧ ((planChunksAux ss es stepDur maxSrc (clipStart + prevTime) steps 0 steps accum).2.2 = false →
        (planChunksAux ss es stepDur maxSrc (clipStart + prevTime) steps 0 steps accum).2.1
          < maxSrc) := by
  obtain ⟨⟨I1, I2, I3, I4, I5, I6, I7, I8, I9, I10⟩, hne⟩ :=
    planChunksAux_spec ss es stepDur maxSrc (clipStart + prevTime) steps hss hes hstepDur.le
      steps 0 accum (by omega)
  have hnonempty := hne hsteps
  have hbound : ∀ c ∈ (planChunksAux ss es stepDur maxSrc (clipStart + prevTime)
      steps 0 steps accum).1, c.segStart + stepDur ≤ clipStart + kfTime := by
    intro c hc
    have h2 := (I8 c hc).2
    have : clipStart + prevTime + (steps : ℚ) * stepDur = clipStart + kfTime := by
      rw [hsum]
      ring
    linarith
  refine ⟨⟨I3, I4, I5, I6, fun c hc => I2 c hc, ?_⟩, hnonempty, I7, hbound, fun hf => I9 hf hnonempty⟩
  intro c hc
  have h1 := (I8 c hc).1
  have h2 := hbound c hc
  constructor
  · simpa using h1
  · linarith

/-- The outer keyframe loop of the planner satisfies its invariants for
nonnegative speeds. -/
theorem planOuter_spec (dur maxSrc clipStart : ℚ) :
    ∀ (kfs : List SpeedKF) (prevSpeed prevTime accum : ℚ),
      0 ≤ prevSpeed → (∀ k ∈ kfs, 0 ≤ k.speed) →
      OuterPlanOK maxSrc clipStart dur prevTime accum
        (planOuter dur maxSrc clipStart kfs prevSpeed prevTime accum)
  | [], prevSpeed, prevTime, accum, hps, _ => by
    simp only [planOuter]
    split
    case isTrue h =>
      exact ⟨by simp, by simp, by simp, by simp, by simp, by simp⟩
    case isFalse h =>
      have hseg : 1/1000 < dur - prevTime := lt_of_not_le h
      have hpos : (0:ℚ) < dur - prevTime := by linarith
      have hceil : 0 < ⌈(dur - prevTime) / (1/2)⌉ := Int.ceil_pos.mpr (by positivity)
      have hsteps : 0 < ⌈(dur - prevTime) / (1/2)⌉.toNat := by omega
      have hcast : (0:ℚ) < (⌈(dur - prevTime) / (1/2)⌉.toNat : ℚ) := by exact_mod_cast hsteps
      have hstepDur : 0 < (dur - prevTime) / (⌈(dur - prevTime) / (1/2)⌉.toNat : ℚ) :=
        div_pos hpos hcast
      have hsum : (⌈(dur - prevTime) / (1/2)⌉.toNat : ℚ)
          * ((dur - prevTime) / (⌈(dur - prevTime) / (1/2)⌉.toNat : ℚ)) = dur - prevTime := by
        rw [mul_comm]
        exact div_mul_cancel₀ _ (ne_of_gt hcast)
      exact (planIter_spec maxSrc clipStart dur prevTime accum dur prevSpeed prevSpeed _ _
        hps hps hsteps hstepDur hsum le_rfl).1
  | k :: rest, prevSpeed, prevTime, accum, hps, hks => by
    have hk0 : 0 ≤ k.speed := hks k (List.mem_cons_self k rest)
    have hkr : ∀ x ∈ rest, 0 ≤ x.speed := fun x hx => hks x (List.mem_cons_of_mem _ hx)
    have hkf : (if k.time > dur then dur else k.time) ≤ dur := by
      split
      · exact le_rfl
      · exact le_of_not_lt (by assumption)
    simp only [planOuter]
    set kfTime := if k.time > dur then dur else k.time with hkfTime
    by_cases h : kfTime - prevTime ≤ 1/1000
    · rw [if_pos h]
      exact planOuter_spec dur maxSrc clipStart rest k.speed prevTime accum hk0 hkr
    · rw [if_neg h]
      have hseg : 1/1000 < kfTime - prevTime := lt_of_not_le h
      have hpos : (0:ℚ) < kfTime - prevTime := by linarith
      have hprev : prevTime < kfTime := by linarith
      have hceil : 0 < ⌈(kfTime - prevTime) / (1/2)⌉ := Int.ceil_pos.mpr (by positivity)
      set steps := ⌈(kfTime - prevTime) / (1/2)⌉.toNat with hstepsdef
      have hsteps : 0 < steps := by omega
      have hcast : (0:ℚ) < (steps : ℚ) := by exact_mod_cast hsteps
      set stepDur := (kfTime - prevTime) / (steps : ℚ) with hstepdurdef
      have hstepDur : 0 < stepDur := div_pos hpos hcast
      have hsum : (steps : ℚ) * stepDur = kfTime - prevTime := by
        rw [hstepdurdef, mul_comm]
        exact div_mul_cancel₀ _ (ne_of_gt hcast)
      set res := planChunksAux prevSpeed k.speed stepDur maxSrc (clipStart + prevTime)
        steps 0 steps accum with hres
      have hiter := planIter_spec maxSrc clipStart dur prevTime accum kfTime prevSpeed
        k.speed stepDur steps hps hk0 hsteps hstepDur hsum hkf
      rw [← hres] at hiter
      obtain ⟨⟨J1, J2, J3, J4, J5, J6⟩, Jne, J7, J8, J9⟩ := hiter
      by_cases hstop : res.2.2 = true
      · rw [if_pos hstop]
        exact ⟨J1, J2, J3, J4, J5, J6⟩
      · rw [if_neg hstop]
        have hfalse : res.2.2 = false := Bool.eq_false_iff.mpr hstop
        have hfinal : res.2.1 < maxSrc := J9 hfalse
        set rec2 := planOuter dur maxSrc clipStart rest k.speed kfTime res.2.1 with hrec2
        have houter := planOuter_spec dur maxSrc clipStart rest k.speed kfTime res.2.1 hk0 hkr
        rw [← hrec2] at houter
        obtain ⟨O1, O2, O3, O4, O5, O6⟩ := houter
        refine ⟨?_, ?_, ?_, ?_, ?_, ?_⟩
        · refine List.Chain'.append J1 O1 ?_
          intro x hx y hy
          have hxm : x ∈ res.1 := List.mem_of_mem_getLast? hx
          have h5 := O5 y hy
          rw [h5]
          exact J7 x hxm
        · refine List.Chain'.append J2 O2 ?_
          intro x hx y hy
          have hxm : x ∈ res.1 := List.mem_of_mem_getLast? hx
          have hym : y ∈ rec2 := List.mem_of_mem_head? hy
          have h1 := J8 x hxm
          have h2 := (O6 y hym).1
          linarith
        · intro c hc
          rcases List.mem_append.mp hc with hcc | hcc
          · exact J3 c hcc
          · exact O3 c hcc
        · obtain ⟨a, t, hat⟩ := List.exists_cons_of_ne_nil Jne
          rw [hat] at J4
          simp only [List.tail_cons] at J4
          rw [hat, List.cons_append, List.tail_cons]
          intro c hc
          rcases List.mem_append.mp hc with hcc | hcc
          · exact J4 c hcc
          · cases hr2 : rec2 with
            | nil =>
              rw [hr2] at hcc
              simp at hcc
            | cons p ps =>
              rw [hr2] at hcc
              rcases List.mem_cons.mp hcc with h' | h'
              · have h5 := O5 p (by rw [hr2]; rfl)
                rw [h', h5]
                exact hfinal
              · have := O4 c (by rw [hr2, List.tail_cons]; exact h')
                exact this
        · obtain ⟨a, t, hat⟩ := List.exists_cons_of_ne_nil Jne
          rw [hat, List.cons_append]
          intro c hc
          simp only [List.head?_cons, Option.some.injEq] at hc
          rw [← hc]
          exact J5 a (by rw [hat]; rfl)
        · intro c hc
          rcases List.mem_append.mp hc with hcc | hcc
          · exact J6 c hcc
          · have h6 := O6 c hcc
            exact ⟨by linarith [h6.1], h6.2⟩

/-- C6: during planning of a clip with two or more speed keyframes, all
nonnegative, the running `accumSourceTime` cursor (each sub-chunk's source
start) never decreases across successive sub-chunks, every sub-chunk's source
end handed to the segment renderer is clamped to at most the asset's source
duration, and once the cursor reaches that duration no further sub-chunk is
planned: every chunk after the first starts strictly below it. -/
theorem planClipSegments_invariants (clipStart dur inPoint maxSrc : ℚ) (kfs : List SpeedKF)
    (hlen : 2 ≤ kfs.length) (hsp : ∀ k ∈ kfs, 0 ≤ k.speed) :
    List.Chain' (fun a b => a.srcStart ≤ b.srcStart)
      (planClipSegments clipStart dur inPoint maxSrc kfs)
    ∧ (∀ c ∈ planClipSegments clipStart dur inPoint maxSrc kfs, c.srcEnd ≤ maxSrc)
    ∧ (∀ c ∈ (planClipSegments clipStart dur inPoint maxSrc kfs).tail,
        c.srcStart < maxSrc) := by
  unfold planClipSegments
  have hsp' : ∀ k ∈ sortByTime SpeedKF.time kfs, 0 ≤ k.speed :=
    fun k hk => hsp k ((sortByTime_perm SpeedKF.time kfs).mem_iff.mp hk)
  cases hs : sortByTime SpeedKF.time kfs with
  | nil => exact ⟨by simp, by simp, by simp⟩
  | cons k0 rest =>
    rw [hs] at hsp'
    obtain ⟨P1, _, P3, P4, _, _⟩ :=
      planOuter_spec dur maxSrc clipStart (k0 :: rest) k0.speed 0 inPoint
        (hsp' k0 (List.mem_cons_self k0 rest)) hsp'
    exact ⟨P1, P3, P4⟩

/-- Witness for C6 on the concrete clip with keyframes `[{0,1},{1,2}]`. -/
theorem planClipSegments_invariants_witness :
    List.Chain' (fun a b => a.srcStart ≤ b.srcStart) (planClipSegments 0 1 0 10 [⟨0, 1⟩, ⟨1, 2⟩])
    ∧ (∀ c ∈ planClipSegments 0 1 0 10 [⟨0, 1⟩, ⟨1, 2⟩], c.srcEnd ≤ 10)
    ∧ (∀ c ∈ (planClipSegments 0 1 0 10 [⟨0, 1⟩, ⟨1, 2⟩]).tail, c.srcStart < 10) :=
  planClipSegments_invariants 0 1 0 10 [⟨0, 1⟩, ⟨1, 2⟩] (by norm_num)
    (by intro k hk; fin_cases hk <;> norm_num)

/-- Per-clip planning facts: the planned chunks are ordered by timeline start
and their starts stay inside the clip's extent. -/
theorem clipSegments_facts (c : VClip) (hd : 0 ≤ c.duration)
    (hsp : ∀ k ∈ c.speedKeyframes, 0 ≤ k.speed) :
    List.Chain' (fun a b => a.segStart ≤ b.segStart) (clipSegments c)
    ∧ ∀ ch ∈ clipSegments c,
        c.start_time ≤ ch.segStart ∧ ch.segStart ≤ c.start_time + c.duration := by
  unfold clipSegments
  cases hda : c.assetDuration with
  | none => exact ⟨by simp, by simp⟩
  | some d =>
    by_cases hlen : c.speedKeyframes.length ≤ 1
    · refine ⟨by simp [hlen], ?_⟩
      intro ch hch
      simp only [hlen, if_true, List.mem_singleton] at hch
      rw [hch]
      exact ⟨le_rfl, by linarith⟩
    · simp only [hlen, if_false]
      unfold planClipSegments
      have hsp' : ∀ k ∈ sortByTime SpeedKF.time c.speedKeyframes, 0 ≤ k.speed :=
        fun k hk => hsp k ((sortByTime_perm SpeedKF.time c.speedKeyframes).mem_iff.mp hk)
      cases hs : sortByTime SpeedKF.time c.speedKeyframes with
      | nil => exact ⟨by simp, by simp⟩
      | cons k0 rest =>
        rw [hs] at hsp'
        obtain ⟨_, P2, _, _, _, P6⟩ :=
          planOuter_spec c.duration (if d = 0 then 10000 else d) c.start_time (k0 :: rest)
            k0.speed 0 c.in_point (hsp' k0 (List.mem_cons_self k0 rest)) hsp'
        refine ⟨P2, ?_⟩
        intro ch hch
        have := P6 ch hch
        exact ⟨by linarith [this.1], this.2⟩

/-- Segments of timeline-disjoint, start-ordered clips concatenate into a
timeline-ordered chunk list. -/
theorem chain_flatMap_clipSegments :
    ∀ (l : List VClip),
      (∀ c ∈ l, 0 ≤ c.duration) →
      (∀ c ∈ l, ∀ k ∈ c.speedKeyframes, 0 ≤ k.speed) →
      List.Pairwise (fun a b => a.start_time + a.duration ≤ b.start_time) l →
      List.Chain' (fun a b => a.segStart ≤ b.segStart) (l.flatMap clipSegments)
  | [], _, _, _ => by simp
  | c :: l, hd, hsp, hpw => by
    rw [List.flatMap_cons]
    have hfacts := clipSegments_facts c (hd c (List.mem_cons_self c l))
      (hsp c (List.mem_cons_self c l))
    have hpair := List.pairwise_cons.mp hpw
    refine List.Chain'.append hfacts.1
      (chain_flatMap_clipSegments l (fun x hx => hd x (List.mem_cons_of_mem _ hx))
        (fun x hx => hsp x (List.mem_cons_of_mem _ hx)) hpair.2) ?_
    intro x hx y hy
    have hxm : x ∈ clipSegments c := List.mem_of_mem_getLast? hx
    have hym : y ∈ l.flatMap clipSegments := List.mem_of_mem_head? hy
    obtain ⟨c', hc', hyc'⟩ := List.mem_flatMap.mp hym
    have h1 := (hfacts.2 x hxm).2
    have h2 := ((clipSegments_facts c' (hd c' (List.mem_cons_of_mem _ hc'))
      (hsp c' (List.mem_cons_of_mem _ hc'))).2 y hyc').1
    have h3 := hpair.1 c' hc'
    linarith

/-- The sort order implies ordering of start times. -/
theorem clipLE_start_le {a b : VClip} (h : clipLE a b) : a.start_time ≤ b.start_time := by
  rcases h with h | ⟨h, _⟩
  · exact h.le
  · exact h.le

/-- C8 (amended): for projects whose video clips (across both video tracks)
have pairwise-disjoint timeline extents and positive durations, the concat
list enumerates the planned segments in non-decreasing order of intended
timeline start.  The unrestricted claim fails for overlapping clips — see the
counterexample. -/
theorem exportSegments_order_disjoint (clips : List VClip)
    (hdur : ∀ c ∈ clips, 0 < c.duration)
    (hsp : ∀ c ∈ clips, ∀ k ∈ c.speedKeyframes, 0 ≤ k.speed)
    (hdisj : List.Pairwise (fun a b => a.start_time + a.duration ≤ b.start_time
      ∨ b.start_time + b.duration ≤ a.start_time) clips) :
    List.Chain' (· ≤ ·) ((exportVideoSegments clips).map Chunk.segStart) := by
  rw [List.chain'_map]
  unfold exportVideoSegments sortVideoClips
  have hperm := List.perm_insertionSort clipLE clips
  have hsorted : (List.insertionSort clipLE clips).Pairwise clipLE :=
    List.sorted_insertionSort clipLE clips
  have hd' : ∀ c ∈ List.insertionSort clipLE clips, 0 < c.duration :=
    fun c hc => hdur c (hperm.mem_iff.mp hc)
  have hsp' : ∀ c ∈ List.insertionSort clipLE clips, ∀ k ∈ c.speedKeyframes, 0 ≤ k.speed :=
    fun c hc => hsp c (hperm.mem_iff.mp hc)
  have hdisj' := (List.Perm.pairwise_iff (fun h => h.elim Or.inr Or.inl) hperm).mpr hdisj
  have hdb : (List.insertionSort clipLE clips).Pairwise (fun _ b => 0 < b.duration) :=
    List.pairwise_of_forall_mem_list fun _ _ b hb => hd' b hb
  have hends : (List.insertionSort clipLE clips).Pairwise
      (fun a b => a.start_time + a.duration ≤ b.start_time) := by
    refine ((hsorted.and hdisj').and hdb).imp ?_
    rintro a b ⟨⟨hle, hdj⟩, hpos⟩
    rcases hdj with h | h
    · exact h
    · exfalso
      have := clipLE_start_le hle
      linarith
  exact chain_flatMap_clipSegments _ (fun c hc => (hd' c hc).le) hsp' hends

/-- Witness for C8 on two disjoint single-keyframe clips. -/
theorem exportSegments_order_disjoint_witness :
    List.Chain' (· ≤ ·) ((exportVideoSegments
      [⟨0, 1, 0, [], some 10, false⟩, ⟨2, 1, 0, [], some 10, true⟩]).map Chunk.segStart) :=
  exportSegments_order_disjoint
    [⟨0, 1, 0, [], some 10, false⟩, ⟨2, 1, 0, [], some 10, true⟩]
    (by intro c hc; fin_cases hc <;> norm_num)
    (by intro c hc; fin_cases hc <;> simp)
    (by norm_num [List.pairwise_cons])

/-- C8 counterexample: with an overlapping pair — a VIDEO_A clip on `[0,2)`
planned as four 0.5 s sub-chunks and a VIDEO_B clip on `[1,2)` planned after
it — the concat list's intended timeline starts are `[0, 1/2, 1, 3/2, 1]`,
which is not non-decreasing. -/
theorem exportSegments_order_cex :
    ¬ List.Chain' (· ≤ ·) ((exportVideoSegments
      [⟨0, 2, 0, [⟨0, 1⟩, ⟨2, 1⟩], some 100, false⟩,
        ⟨1, 1, 0, [], some 100, true⟩]).map Chunk.segStart) := by
  norm_num [exportVideoSegments, sortVideoClips, List.insertionSort, List.orderedInsert,
    clipLE, clipSegments, planClipSegments, sortByTime, timeLE, planOuter, planChunksAux,
    Int.toNat, List.chain'_cons]

end TryTakeTwo
